import Mathlib

/-!
Verification development for the `drive-api-deploy-action` repository.

The development shallowly embeds the repository's workflow test harness
(`test/workflow/workflow-helpers.ts`: `WorkflowValidator`, `WorkflowMocker`,
`simulateWorkflowStep`) and the configuration parser
(`src/workflow/yaml-parser.ts`: `YamlParser`).  Strings are modelled as Lean
`String` values; the JavaScript regular expressions used by the source are
embedded as explicit backtracking matchers over `List Char` that reproduce the
leftmost-match / lazy-group semantics of the concrete patterns appearing in
the code.  Mutable state (the mock registry, the parser cache) is passed
explicitly; `throw` is modelled with `Except`.  A ghost `trace` field on the
mock registry records every line forwarded to the command dispatcher, and a
ghost `reads` field on the parser state records every file read performed.
-/

/-- Whitespace test matching the JavaScript `\s` character class (restricted
to the ASCII whitespace characters that can occur in the repository's
strings). -/
def isWS (c : Char) : Bool :=
  c == ' ' || c == '\t' || c == '\n' || c == '\x0d' || c == '\x0b' || c == '\x0c'

/-- Prefix test on character lists: `leadsWith p l` holds when `p` is an
initial segment of `l`. -/
def leadsWith : List Char → List Char → Bool
  | [], _ => true
  | _ :: _, [] => false
  | p :: ps, c :: cs => p == c && leadsWith ps cs

/-- Substring occurrence test on character lists, the model of JavaScript's
`String.prototype.includes`. -/
def occursIn (pat : List Char) : List Char → Bool
  | [] => leadsWith pat []
  | l@(_ :: t) => leadsWith pat l || occursIn pat t

/-- Substring occurrence on strings: `strIncludes s pat` models
`s.includes(pat)`. -/
def strIncludes (s pat : String) : Bool :=
  occursIn pat.data s.data

/-- Prefix test on strings: `strStarts s pre` models `s.startsWith(pre)`. -/
def strStarts (s pre : String) : Bool :=
  leadsWith pre.data s.data

/-- Trim surrounding whitespace from a character list, the model of
JavaScript's `String.prototype.trim`. -/
def trimList (l : List Char) : List Char :=
  ((l.dropWhile isWS).reverse.dropWhile isWS).reverse

/-- Trim surrounding whitespace from a string. -/
def trimStr (s : String) : String :=
  String.mk (trimList s.data)

/-- Split a character list at every newline, keeping empty segments: the model
of JavaScript's `split('\n')`. -/
def splitNl : List Char → List (List Char)
  | [] => [[]]
  | c :: rest =>
    if c == '\n' then [] :: splitNl rest
    else
      match splitNl rest with
      | h :: t => (c :: h) :: t
      | [] => [c :: rest]

/-- Split a string into its newline-separated lines. -/
def splitLines (s : String) : List String :=
  (splitNl s.data).map String.mk

/-- First-match association lookup, the model of reading a property of a
JavaScript object or of `Map.prototype.get`. -/
def assocLookup {α : Type} : List (String × α) → String → Option α
  | [], _ => none
  | p :: rest, k => if p.1 = k then some p.2 else assocLookup rest k

/-- Set a key in an association list: the existing binding is updated in
place (JavaScript objects and `Map`s keep the original insertion position of
an updated key), a fresh key is appended at the end. -/
def setPair {α : Type} : List (String × α) → String → α → List (String × α)
  | [], k, v => [(k, v)]
  | p :: rest, k, v => if p.1 = k then (k, v) :: rest else p :: setPair rest k v

/-- Remove every binding of a key from an association list. -/
def eraseKey {α : Type} (l : List (String × α)) (k : String) : List (String × α) :=
  l.filter (fun p => !(p.1 == k))

/-! ### The conditional-guard regular expression

`WorkflowValidator.validateStepConditions` matches a step's `if` expression
against the JavaScript regular expression

  steps\.(.+?)\.outputs\.(.+?)\s*==\s*'(.+?)'

The functions below reproduce its semantics: leftmost successful start
position, lazy (shortest-first) capture groups with backtracking, `.` not
matching a newline, greedy `\s*` before a non-whitespace literal. -/

/-- The literal `.outputs.` of the guard pattern. -/
def outputsLit : List Char := '.' :: 'o' :: 'u' :: 't' :: 'p' :: 'u' :: 't' :: 's' :: '.' :: []

/-- The literal `steps.` of the guard pattern. -/
def stepsLit : List Char := 's' :: 't' :: 'e' :: 'p' :: 's' :: '.' :: []

/-- Lazy match of the final group `(.+?)` followed by a closing quote: the
shortest non-empty run of non-newline characters followed by `'`. -/
def matchVal : List Char → Option (List Char)
  | [] => none
  | c :: rest =>
    if c == '\n' then none
    else if (match rest with | q :: _ => q == '\'' | [] => false) then some [c]
    else (matchVal rest).map (fun g => c :: g)

/-- Match the guard-pattern tail `\s*==\s*'(.+?)'` at the current position,
returning the third capture group. -/
def matchEq (l : List Char) : Option (List Char) :=
  match l.dropWhile isWS with
  | a :: b :: r =>
    if a == '=' && b == '=' then
      match r.dropWhile isWS with
      | q :: r2 => if q == '\'' then matchVal r2 else none
      | [] => none
    else none
  | _ => none

/-- Lazy match of the second capture group `(.+?)` followed by
`\s*==\s*'(.+?)'`: shortest-first with backtracking into the tail. -/
def g2loop : List Char → Option (List Char × List Char)
  | [] => none
  | c :: rest =>
    if c == '\n' then none
    else
      match matchEq rest with
      | some g3 => some ([c], g3)
      | none => (g2loop rest).map (fun p => (c :: p.1, p.2))

/-- Lazy match of the first capture group `(.+?)` followed by `\.outputs\.`
and the rest of the guard pattern, with backtracking: if the literal
`.outputs.` matches but the tail fails, the group is extended. -/
def g1loop : List Char → Option (List Char × List Char × List Char)
  | [] => none
  | c :: rest =>
    if c == '\n' then none
    else
      match (if leadsWith outputsLit rest then g2loop (rest.drop 9) else none) with
      | some p => some ([c], p.1, p.2)
      | none => (g1loop rest).map (fun t => (c :: t.1, t.2.1, t.2.2))

/-- Full guard-pattern search: try every start position from the left, a
successful match requiring the literal `steps.` there. -/
def findCondMatch : List Char → Option (List Char × List Char × List Char)
  | [] => none
  | c :: rest =>
    if leadsWith stepsLit (c :: rest) then
      match g1loop ((c :: rest).drop 6) with
      | some t => some t
      | none => findCondMatch rest
    else findCondMatch rest

/-! ### The output-emission regular expressions

`simulateWorkflowStep` recognises the two line shapes

  echo "(.+?)=(.+?)" >> \$GITHUB_OUTPUT          (default shell family)
  echo "(.+?)=(.+?)" >> \$env:GITHUB_OUTPUT      (powershell)

again with leftmost start and lazy groups. -/

/-- The literal `echo "` opening both emission patterns. -/
def echoLit : List Char := 'e' :: 'c' :: 'h' :: 'o' :: ' ' :: '"' :: []

/-- The literal closing an emission line under the default shell family:
`" >> $GITHUB_OUTPUT`. -/
def bashSink : List Char := ("\" >> $GITHUB_OUTPUT").data

/-- The literal closing an emission line under `powershell`:
`" >> $env:GITHUB_OUTPUT`. -/
def psSink : List Char := ("\" >> $env:GITHUB_OUTPUT").data

/-- Lazy match of the emission value group `(.+?)` followed by the closing
literal `sink`. -/
def echoVal (sink : List Char) : List Char → Option (List Char)
  | [] => none
  | c :: rest =>
    if c == '\n' then none
    else if leadsWith sink rest then some [c]
    else (echoVal sink rest).map (fun g => c :: g)

/-- Lazy match of the emission key group `(.+?)` followed by `=` and the
value group, with backtracking past an `=` whose value part fails. -/
def echoKey (sink : List Char) : List Char → Option (List Char × List Char)
  | [] => none
  | c :: rest =>
    if c == '\n' then none
    else
      match (match rest with
             | d :: r2 => if d == '=' then echoVal sink r2 else none
             | [] => none) with
      | some g2 => some ([c], g2)
      | none => (echoKey sink rest).map (fun p => (c :: p.1, p.2))

/-- Full emission-pattern search: try every start position from the left, a
successful match requiring the literal `echo "` there.  Returns the key and
value capture groups. -/
def findEcho (sink : List Char) : List Char → Option (List Char × List Char)
  | [] => none
  | c :: rest =>
    if leadsWith echoLit (c :: rest) then
      match echoKey sink ((c :: rest).drop 6) with
      | some kv => some kv
      | none => findEcho sink rest
    else findEcho sink rest

/-! ### Input interpolation

`simulateWorkflowStep` replaces, for every supplied input key, every
occurrence of `${{\s*inputs.<key>\s*}}` in the script body by the input's
value (`String.prototype.replace` with a global regex: non-overlapping,
left to right, replacements not rescanned within one pass). -/

/-- The literal `inputs.` of the interpolation token. -/
def inputsLit : List Char := 'i' :: 'n' :: 'p' :: 'u' :: 't' :: 's' :: '.' :: []

/-- Does the list open an interpolation token, i.e. start with the three
characters of the literal dollar-brace-brace delimiter. -/
def isTokStart : List Char → Bool
  | a :: b :: c :: _ => a == '$' && b == '\x7b' && c == '\x7b'
  | _ => false

/-- Try to match the interpolation token for `key` at the head of `l`;
on success return the remainder of `l` after the token. -/
def tryToken (key : List Char) (l : List Char) : Option (List Char) :=
  match l with
  | a :: b :: c :: rest =>
    if a == '$' && b == '\x7b' && c == '\x7b' then
      let r1 := rest.dropWhile isWS
      if leadsWith (inputsLit ++ key) r1 then
        match (r1.drop (7 + key.length)).dropWhile isWS with
        | d :: e :: r3 => if d == '\x7d' && e == '\x7d' then some r3 else none
        | _ => none
      else none
    else none
  | _ => none

/-- One global-replace pass for one key, scanning left to right with fuel
(one unit per character position). -/
def substAux (key value : List Char) : Nat → List Char → List Char
  | 0, l => l
  | Nat.succ _, [] => []
  | Nat.succ fuel, c :: rest =>
    match tryToken key (c :: rest) with
    | some r => value ++ substAux key value fuel r
    | none => c :: substAux key value fuel rest

/-- Global replacement of the interpolation token for `key` by `value`. -/
def substToken (key value l : List Char) : List Char :=
  substAux key value l.length l

/-! ### Data model of `test/workflow/workflow-helpers.ts` -/

/-- The shell designators admitted by the `WorkflowStep` interface. -/
inductive Shell where
  | bash
  | powershell
  | pwsh
  | sh
  | cmd
deriving DecidableEq

/-- A workflow step (`WorkflowStep` in the source).  The source field `if`
is named `ifCond` here because `if` is reserved in Lean. -/
structure WorkflowStep where
  name : String
  id : Option String
  shell : Option Shell
  run : Option String
  ifCond : Option String
deriving DecidableEq

/-- Configuration of one declared input (`InputConfig` in the source). -/
structure InputConfig where
  description : String
  required : Bool
  default : Option String
deriving DecidableEq

/-- The `runs` block of an action definition.  The source field `using` is
named `usingMode` here to avoid clashing with Lean tactic syntax. -/
structure RunsConfig where
  usingMode : String
  steps : List WorkflowStep
deriving DecidableEq

/-- A parsed composite-action definition (`ActionConfig` in
`workflow-helpers.ts`).  The `inputs` object is modelled as an association
list in declaration order. -/
structure ActionConfig where
  name : String
  description : String
  author : Option String
  inputs : List (String × InputConfig)
  runs : RunsConfig
deriving DecidableEq

/-- The typed input map (`WorkflowInput`): four required string fields and
one optional field.  The source property names are `github-token`,
`public-repo-token`, `private-repo`, `public-repo` and `wrangler-port`. -/
structure WorkflowInput where
  githubToken : String
  publicRepoToken : String
  privateRepo : String
  publicRepo : String
  wranglerPort : Option String
deriving DecidableEq

/-- The entries of a `WorkflowInput` in property order, as produced by
`Object.entries`; an absent optional field contributes no entry. -/
def WorkflowInput.entries (i : WorkflowInput) : List (String × String) :=
  [("github-token", i.githubToken),
   ("public-repo-token", i.publicRepoToken),
   ("private-repo", i.privateRepo),
   ("public-repo", i.publicRepo)] ++
  (match i.wranglerPort with
   | some v => [("wrangler-port", v)]
   | none => [])

/-- The result record of `simulateWorkflowStep` (`StepExecutionResult`). -/
structure StepExecutionResult where
  success : Bool
  outputs : Option (List (String × String))
  error : Option String
deriving DecidableEq

/-- A value thrown by JavaScript code: an `Error` instance carrying a
message, a plain string, or any other value together with its `String(...)`
representation. -/
inductive Thrown where
  | error (msg : String)
  | str (s : String)
  | other (text : String)
deriving DecidableEq

/-- The message computed by the simulator's catch block:
`error instanceof Error ? error.message : String(error)`. -/
def thrownToString : Thrown → String
  | .error msg => msg
  | .str s => s
  | .other text => text

/-- A zero-argument mock handler (`CommandHandler`): calling it either
returns normally or throws.  Handlers in the test suite are pure, so a
handler is modelled by the outcome of its call. -/
@[reducible] def CommandHandler : Type := Except Thrown Unit

/-- Equality of handler outcomes is decidable. -/
instance : DecidableEq CommandHandler
  | Except.ok (), Except.ok () => isTrue rfl
  | Except.ok (), Except.error _ => isFalse (by simp)
  | Except.error _, Except.ok () => isFalse (by simp)
  | Except.error e, Except.error f =>
    if h : e = f then isTrue (by rw [h]) else isFalse (by simp [h])

/-- The mock registry (`WorkflowMocker`): the pattern map (in registration
order), the output map (in insertion order) and a ghost trace of every
command line forwarded to `executeCommand`. -/
structure WorkflowMocker where
  mockedCommands : List (String × CommandHandler)
  outputs : List (String × String)
  trace : List String
deriving DecidableEq

namespace WorkflowMocker

/-- `mockCommand`: store a handler under a pattern (`Map.prototype.set`). -/
def mockCommand (m : WorkflowMocker) (command : String) (handler : CommandHandler) :
    WorkflowMocker :=
  { m with mockedCommands := setPair m.mockedCommands command handler }

/-- `setOutput`: store an output value under a key. -/
def setOutput (m : WorkflowMocker) (key value : String) : WorkflowMocker :=
  { m with outputs := setPair m.outputs key value }

/-- `getOutput`: read an output value. -/
def getOutput (m : WorkflowMocker) (key : String) : Option String :=
  assocLookup m.outputs key

/-- `getOutputs`: the whole output map. -/
def getOutputs (m : WorkflowMocker) : List (String × String) :=
  m.outputs

/-- The first registered handler whose pattern occurs in the command as a
substring. -/
def findHandler (cmds : List (String × CommandHandler)) (command : String) :
    Option CommandHandler :=
  (cmds.find? (fun p => strIncludes command p.1)).map (fun p => p.2)

/-- `executeCommand`: dispatch a command line to the first matching handler,
recording the line in the ghost trace; with no matching handler, throw the
`NoMockError` (`new Error('No mock found for command: ...')`).  A thrown
value is paired with the registry state at the moment of the throw. -/
def executeCommand (m : WorkflowMocker) (command : String) :
    Except (Thrown × WorkflowMocker) WorkflowMocker :=
  let m' : WorkflowMocker := { m with trace := m.trace ++ [command] }
  match findHandler m.mockedCommands command with
  | some (Except.ok _) => .ok m'
  | some (Except.error e) => .error (e, m')
  | none => .error (.error ("No mock found for command: " ++ command), m')

/-- `reset`: clear both the pattern map and the output map (the ghost trace
is not part of the source state and is kept). -/
def reset (m : WorkflowMocker) : WorkflowMocker :=
  { m with mockedCommands := [], outputs := [] }

end WorkflowMocker

/-! ### `WorkflowValidator` -/

namespace WorkflowValidator

/-- Truthiness of a supplied input value: the lookup must produce a
non-empty string (JavaScript `!inputs[name]`). -/
def truthyLookup (inputs : List (String × String)) (n : String) : Bool :=
  match assocLookup inputs n with
  | some v => !(v == "")
  | none => false

/-- `validateInputs`: one error string per input declared `required: true`
whose supplied value is absent or falsy, in declaration order. -/
def validateInputs (cfg : ActionConfig) (inputs : List (String × String)) : List String :=
  let requiredInputs := (cfg.inputs.filter (fun p => p.2.required)).map (fun p => p.1)
  requiredInputs.filterMap (fun n =>
    if truthyLookup inputs n then none
    else some ("Missing required input: " ++ n))

/-- `getStepByName`: first step with the given display name. -/
def getStepByName (cfg : ActionConfig) (stepName : String) : Option WorkflowStep :=
  cfg.runs.steps.find? (fun st => st.name == stepName)

/-- `getStepById`: first step with the given id. -/
def getStepById (cfg : ActionConfig) (stepId : String) : Option WorkflowStep :=
  cfg.runs.steps.find? (fun st => st.id == some stepId)

/-- `extractCommandsFromStep`: the trimmed, non-empty, non-comment lines of
the step's script body, in order. -/
def extractCommandsFromStep (step : WorkflowStep) : List String :=
  match step.run with
  | none => []
  | some run =>
    (splitLines run).filterMap (fun line =>
      let trimmed := trimStr line
      if !(trimmed == "") && !(strStarts trimmed "#") then some trimmed else none)

/-- `validateStepConditions`: look up the named step; with no step or no
guard (or an empty guard, which is falsy) the condition holds; with a guard
matching the supported pattern, compare the registered output against the
expected literal; with any other guard shape the condition holds. -/
def validateStepConditions (cfg : ActionConfig) (stepName : String)
    (outputs : List (String × String)) : Bool :=
  match getStepByName cfg stepName with
  | none => true
  | some step =>
    match step.ifCond with
    | none => true
    | some condition =>
      if condition == "" then true
      else
        match findCondMatch condition.data with
        | none => true
        | some (stepId, outputName, expectedValue) =>
          assocLookup outputs
              ("steps." ++ String.mk stepId ++ ".outputs." ++ String.mk outputName)
            == some (String.mk expectedValue)

end WorkflowValidator

/-! ### `simulateWorkflowStep` -/

/-- The text interpolated for `step.id` in a template literal: an absent id
renders as the string `undefined`. -/
def stepIdStr (step : WorkflowStep) : String :=
  match step.id with
  | some i => i
  | none => "undefined"

/-- Apply the interpolation pass of `simulateWorkflowStep`: one global
replace per supplied input entry, in property order. -/
def interpolateInputs (inputs : WorkflowInput) (run : String) : String :=
  inputs.entries.foldl
    (fun acc p => String.mk (substToken p.1.data p.2.data acc.data)) run

/-- Process one line of the (already interpolated) script body, mirroring
the loop body of `simulateWorkflowStep`: skip blank and comment lines;
under `powershell` recognise the emission pattern and the `try`/`catch`
block markers, skipping anything else; under every other shell designator
recognise the default emission pattern, forwarding every other line to
`executeCommand`.  A throw carries the registry state at the throw. -/
def processLine (step : WorkflowStep) (m : WorkflowMocker) (line : String) :
    Except (Thrown × WorkflowMocker) WorkflowMocker :=
  let trimmedLine := trimStr line
  if trimmedLine == "" || strStarts trimmedLine "#" then .ok m
  else if step.shell = some Shell.powershell then
    if strIncludes trimmedLine "echo" && strIncludes trimmedLine "GITHUB_OUTPUT" then
      match findEcho psSink trimmedLine.data with
      | some (key, value) =>
        .ok (m.setOutput ("steps." ++ stepIdStr step ++ ".outputs." ++ String.mk key)
              (String.mk value))
      | none => .ok m
    else if strIncludes trimmedLine "try \x7b" then
      .ok (m.setOutput ("steps." ++ stepIdStr step ++ ".outputs.bash_available") "true")
    else if strIncludes trimmedLine "\x7d catch \x7b" then
      .ok (m.setOutput ("steps." ++ stepIdStr step ++ ".outputs.bash_available") "false")
    else .ok m
  else
    if strIncludes trimmedLine "echo" && strIncludes trimmedLine "GITHUB_OUTPUT" then
      match findEcho bashSink trimmedLine.data with
      | some (key, value) =>
        .ok (m.setOutput ("steps." ++ stepIdStr step ++ ".outputs." ++ String.mk key)
              (String.mk value))
      | none => .ok m
    else m.executeCommand trimmedLine

/-- Process the script lines in order, stopping at the first throw. -/
def simulateLines (step : WorkflowStep) :
    List String → WorkflowMocker → Except (Thrown × WorkflowMocker) WorkflowMocker
  | [], m => .ok m
  | l :: rest, m =>
    match processLine step m l with
    | .ok m' => simulateLines step rest m'
    | .error em => .error em

/-- `simulateWorkflowStep`: interpolate the inputs into the script body,
process every line, and either return the per-step slice of the output map
or capture a thrown value as a failure result.  The final registry state is
returned alongside the result. -/
def simulateWorkflowStep (step : WorkflowStep) (inputs : WorkflowInput)
    (m : WorkflowMocker) : StepExecutionResult × WorkflowMocker :=
  match step.run with
  | none => ({ success := true, outputs := none, error := none }, m)
  | some run =>
    let processedRun := interpolateInputs inputs run
    let lines := splitLines processedRun
    match simulateLines step lines m with
    | .ok m' =>
      ({ success := true,
         outputs := some (m'.getOutputs.filter
           (fun p => strStarts p.1 ("steps." ++ stepIdStr step))),
         error := none }, m')
    | .error (e, m') =>
      ({ success := false, outputs := none, error := some (thrownToString e) }, m')

/-! ### `YamlParser` (`src/workflow/yaml-parser.ts`)

The file-system read (`fs.readFileSync`) and the YAML library
(`yaml.parse`) are external collaborators; they are modelled as an
environment of two opaque functions, each returning `none` where the
original throws.  The parser state carries the path-keyed cache and a ghost
log of every file read performed. -/

namespace YamlParser

/-- A step of a parsed action definition, as far as `YamlParser` inspects
it. -/
structure StepRaw where
  name : String
deriving DecidableEq

/-- The `runs` block of a parsed action definition; both the block and its
step list may be missing in a malformed document.  The source field `using`
is named `usingMode` here. -/
structure RunsRaw where
  usingMode : String
  steps : Option (List StepRaw)
deriving DecidableEq

/-- A parsed action document before validation (`ActionConfig` in
`yaml-parser.ts`, restricted to the fields validation inspects). -/
structure ActionConfigRaw where
  name : String
  description : String
  runs : Option RunsRaw
deriving DecidableEq

/-- The external collaborators: reading a file by path and parsing its text
into a structured document. -/
structure FsEnv where
  read : String → Option String
  parse : String → Option ActionConfigRaw

/-- The mutable state of a `YamlParser` instance: the path-keyed cache and
the ghost log of file reads. -/
structure ParserState where
  cache : List (String × ActionConfigRaw)
  reads : List String
deriving DecidableEq

/-- `validateActionConfig`: the first structural error of the document, or
`none` when the document is valid.  Mirrors the source checks in order:
falsy name, falsy description, missing `runs` block or a `using` mode other
than `composite`, missing or empty step list. -/
def validateActionConfig (config : ActionConfigRaw) : Option String :=
  if config.name = "" then some "Action must have a name"
  else if config.description = "" then some "Action must have a description"
  else
    match config.runs with
    | none => some "Action must use composite runs"
    | some runs =>
      if runs.usingMode ≠ "composite" then some "Action must use composite runs"
      else
        match runs.steps with
        | none => some "Action must have at least one step"
        | some steps =>
          if steps.length = 0 then some "Action must have at least one step"
          else none

/-- `parseActionYaml`: return the cached document for the path when present;
otherwise read the file, parse it, validate it and cache it.  Every failure
is surfaced as an error and nothing is cached; the read log records each
actual file read. -/
def parseActionYaml (env : FsEnv) (actualPath : String) (st : ParserState) :
    Except String ActionConfigRaw × ParserState :=
  match assocLookup st.cache actualPath with
  | some config => (.ok config, st)
  | none =>
    let st1 : ParserState := { st with reads := st.reads ++ [actualPath] }
    match env.read actualPath with
    | none => (.error ("ENOENT: no such file or directory: " ++ actualPath), st1)
    | some content =>
      match env.parse content with
      | none => (.error "YAML parse error", st1)
      | some parsed =>
        match validateActionConfig parsed with
        | some msg => (.error msg, st1)
        | none => (.ok parsed, { st1 with cache := st1.cache ++ [(actualPath, parsed)] })

/-- `clearCache`: drop every cached entry. -/
def clearCache (st : ParserState) : ParserState :=
  { st with cache := [] }

/-- `getCacheSize`: the number of cached entries. -/
def getCacheSize (st : ParserState) : Nat :=
  st.cache.length

/-- Run a sequence of `parseActionYaml` calls, one path after another,
returning the final state when every call succeeds and `none` otherwise. -/
def runCalls (env : FsEnv) : List String → ParserState → Option ParserState
  | [], st => some st
  | p :: ps, st =>
    match parseActionYaml env p st with
    | (.ok _, st') => runCalls env ps st'
    | (.error _, _) => none

/-- A job's `strategy` block: an optional matrix of axis-name to value
list. -/
structure StrategyConfig where
  matrix : Option (List (String × List String))
deriving DecidableEq

/-- A workflow job, as far as `analyzeWorkflowMatrix` inspects it.  The
source field `runs-on` is named `runsOn` here. -/
structure JobConfig where
  runsOn : String
  strategy : Option StrategyConfig
deriving DecidableEq

/-- A parsed workflow definition restricted to the fields the analyzed
claims need: the job map in declaration order. -/
structure WorkflowConfig where
  name : String
  jobs : List (String × JobConfig)
deriving DecidableEq

/-- The result record of `analyzeWorkflowMatrix`. -/
structure MatrixAnalysis where
  operatingSystems : List String
  nodeVersions : List String
  totalCombinations : Nat
deriving DecidableEq

/-- `analyzeWorkflowMatrix`: look up the job named `test`; with no such job
or no matrix, everything is empty; otherwise read the `os` and
`node-version` axes (each defaulting to the empty list) and multiply their
lengths. -/
def analyzeWorkflowMatrix (cfg : WorkflowConfig) : MatrixAnalysis :=
  match assocLookup cfg.jobs "test" with
  | none => ⟨[], [], 0⟩
  | some testJob =>
    match testJob.strategy with
    | none => ⟨[], [], 0⟩
    | some strategy =>
      match strategy.matrix with
      | none => ⟨[], [], 0⟩
      | some matrix =>
        let operatingSystems := (assocLookup matrix "os").getD []
        let nodeVersions := (assocLookup matrix "node-version").getD []
        ⟨operatingSystems, nodeVersions,
         operatingSystems.length * nodeVersions.length⟩

end YamlParser
/-! ### Generic lemmas about association lists -/

/-- Looking up the key just set yields the value just set. -/
theorem assocLookup_setPair_self {α : Type} (l : List (String × α)) (k : String) (v : α) :
    assocLookup (setPair l k v) k = some v := by
  induction l with
  | nil => simp [setPair, assocLookup]
  | cons p rest ih =>
    by_cases h : p.1 = k
    · simp [setPair, h, assocLookup]
    · simp [setPair, h, assocLookup, ih]

/-- Filtering by a predicate on keys preserves the lookup of a key the
predicate accepts. -/
theorem assocLookup_filter {α : Type} (q : String → Bool) (l : List (String × α))
    (k : String) (hk : q k = true) :
    assocLookup (l.filter (fun p => q p.1)) k = assocLookup l k := by
  induction l with
  | nil => rfl
  | cons p rest ih =>
    by_cases h : p.1 = k
    · subst h; simp [assocLookup, hk]
    · by_cases hq : q p.1
      · simp [assocLookup, hq, h, ih]
      · simp [assocLookup, hq, h, ih]

/-- Erasing a key removes its binding. -/
theorem assocLookup_eraseKey_self {α : Type} (l : List (String × α)) (k : String) :
    assocLookup (eraseKey l k) k = none := by
  induction l with
  | nil => rfl
  | cons p rest ih =>
    by_cases h : p.1 = k
    · have hb : (p.1 == k) = true := beq_iff_eq.mpr h
      simpa [eraseKey, List.filter_cons, hb] using ih
    · have hb : (p.1 == k) = false := beq_eq_false_iff_ne.mpr h
      simpa [eraseKey, List.filter_cons, hb, assocLookup, h] using ih

/-- Erasing one key leaves every other key's lookup unchanged. -/
theorem assocLookup_eraseKey_ne {α : Type} (l : List (String × α)) (k n : String)
    (h : n ≠ k) :
    assocLookup (eraseKey l k) n = assocLookup l n := by
  induction l with
  | nil => rfl
  | cons p rest ih =>
    by_cases hp : p.1 = k
    · have hb : (p.1 == k) = true := beq_iff_eq.mpr hp
      have hpn : p.1 ≠ n := by rw [hp]; exact fun e => h e.symm
      simpa [eraseKey, List.filter_cons, hb, assocLookup, hpn] using ih
    · have hb : (p.1 == k) = false := beq_eq_false_iff_ne.mpr hp
      by_cases hn : p.1 = n
      · simp [eraseKey, List.filter_cons, hb, assocLookup, hn, h]
      · simpa [eraseKey, List.filter_cons, hb, assocLookup, hn] using ih

/-- A lookup is `none` exactly when the key is absent from the key list. -/
theorem assocLookup_eq_none_iff {α : Type} (l : List (String × α)) (k : String) :
    assocLookup l k = none ↔ k ∉ l.map Prod.fst := by
  induction l with
  | nil => simp [assocLookup]
  | cons p rest ih =>
    by_cases h : p.1 = k
    · simp [assocLookup, h]
    · simp only [assocLookup, h, if_false, List.map_cons, List.mem_cons, ih]
      constructor
      · intro hr hk
        rcases hk with hk | hk
        · exact h hk.symm
        · exact hr hk
      · intro hk m
        exact hk (Or.inr m)

/-- Appending a fresh binding at the end of a list in which the key is
absent makes it the key's binding. -/
theorem assocLookup_append_fresh {α : Type} (l : List (String × α)) (k : String) (v : α)
    (h : assocLookup l k = none) :
    assocLookup (l ++ [(k, v)]) k = some v := by
  induction l with
  | nil => simp [assocLookup]
  | cons p rest ih =>
    by_cases hp : p.1 = k
    · simp [assocLookup, hp] at h
    · have h' : assocLookup rest k = none := by
        simpa [assocLookup, hp] using h
      simpa [assocLookup, hp] using ih h'

/-! ### Interpolation on token-free text -/

/-- A character list containing no interpolation-token opener anywhere. -/
def noTok : List Char → Bool
  | [] => true
  | c :: rest => !(isTokStart (c :: rest)) && noTok rest

/-- Where no token opener starts, `tryToken` fails. -/
theorem tryToken_eq_none (key : List Char) :
    ∀ l, isTokStart l = false → tryToken key l = none
  | [], _ => rfl
  | [_], _ => rfl
  | [_, _], _ => rfl
  | a :: b :: c :: _, h => by
    have hc : (a == '$' && b == '\x7b' && c == '\x7b') = false := by
      simpa [isTokStart] using h
    simp [tryToken, hc]

/-- On token-free text the substitution pass is the identity. -/
theorem substAux_of_noTok (key value : List Char) :
    ∀ fuel l, noTok l = true → substAux key value fuel l = l := by
  intro fuel
  induction fuel with
  | zero => intro l _; rfl
  | succ n ih =>
    intro l h
    cases l with
    | nil => rfl
    | cons c rest =>
      have h1 : isTokStart (c :: rest) = false := by
        have := (Bool.and_eq_true _ _).mp h
        simpa using this.1
      have h2 : noTok rest = true := ((Bool.and_eq_true _ _).mp h).2
      simp [substAux, tryToken_eq_none key _ h1, ih rest h2]

/-- `String.mk` of a string's character data is the string itself. -/
theorem stringMk_data (s : String) : String.mk s.data = s := by
  cases s; rfl

/-- On a token-free script body the whole interpolation pass is the
identity, whatever the supplied inputs. -/
theorem interpolateInputs_of_noTok (inputs : WorkflowInput) (run : String)
    (h : noTok run.data = true) : interpolateInputs inputs run = run := by
  unfold interpolateInputs
  generalize inputs.entries = entries
  induction entries generalizing run with
  | nil => rfl
  | cons p ps ih =>
    have hstep : String.mk (substToken p.1.data p.2.data run.data) = run := by
      rw [substToken, substAux_of_noTok _ _ _ _ h, stringMk_data]
    rw [List.foldl_cons, hstep]
    exact ih run h

/-! ### Claim C1 -/

/-- Processing the single C1 emission line under any non-`powershell`
shell records the `result` output for step id `build`. -/
theorem processLine_c1 (step : WorkflowStep) (m : WorkflowMocker)
    (hid : step.id = some "build")
    (hshell : step.shell ≠ some Shell.powershell) :
    processLine step m "echo \"result=success\" >> $GITHUB_OUTPUT" =
      .ok (m.setOutput "steps.build.outputs.result" "success") := by
  have hidstr : stepIdStr step = "build" := by simp [stepIdStr, hid]
  have htrim : trimStr "echo \"result=success\" >> $GITHUB_OUTPUT" =
      "echo \"result=success\" >> $GITHUB_OUTPUT" := by decide
  have hfind : findEcho bashSink ("echo \"result=success\" >> $GITHUB_OUTPUT").data =
      some ("result".data, "success".data) := by decide
  simp only [processLine, htrim, hidstr]
  rw [if_neg (by decide), if_neg (by simpa using hshell), if_pos (by decide), hfind]
  have hkey : ("steps." ++ "build" ++ ".outputs." ++ String.mk ("result".data) : String) =
      "steps.build.outputs.result" := by decide
  have hval : (String.mk ("success".data) : String) = "success" := by decide
  show Except.ok (m.setOutput ("steps." ++ "build" ++ ".outputs." ++ String.mk ("result".data))
        (String.mk ("success".data))) =
      Except.ok (m.setOutput "steps.build.outputs.result" "success")
  rw [hkey, hval]

/-- Claim C1: simulating a step with id `build`, a non-`powershell` shell
designator and the single-line body `echo "result=success" >> $GITHUB_OUTPUT`
succeeds, for every input map and every registry state, and the returned
output map contains `steps.build.outputs.result = success`. -/
theorem simulate_build_emission_succeeds
    (step : WorkflowStep) (inputs : WorkflowInput) (m : WorkflowMocker)
    (hid : step.id = some "build")
    (hshell : step.shell ≠ some Shell.powershell)
    (hrun : step.run = some "echo \"result=success\" >> $GITHUB_OUTPUT") :
    (simulateWorkflowStep step inputs m).1.success = true ∧
    assocLookup ((simulateWorkflowStep step inputs m).1.outputs.getD [])
      "steps.build.outputs.result" = some "success" := by
  have hint : interpolateInputs inputs "echo \"result=success\" >> $GITHUB_OUTPUT" =
      "echo \"result=success\" >> $GITHUB_OUTPUT" :=
    interpolateInputs_of_noTok inputs _ (by decide)
  have hlines : splitLines "echo \"result=success\" >> $GITHUB_OUTPUT" =
      ["echo \"result=success\" >> $GITHUB_OUTPUT"] := by decide
  have hidstr : stepIdStr step = "build" := by simp [stepIdStr, hid]
  have hsim : simulateWorkflowStep step inputs m =
      ({ success := true,
         outputs := some ((m.setOutput "steps.build.outputs.result" "success").getOutputs.filter
           (fun p => strStarts p.1 ("steps." ++ stepIdStr step))),
         error := none },
       m.setOutput "steps.build.outputs.result" "success") := by
    simp only [simulateWorkflowStep, hrun, hint, hlines, simulateLines,
      processLine_c1 step m hid hshell]
  rw [hsim]
  refine ⟨rfl, ?_⟩
  simp only [Option.getD_some, hidstr]
  have hq : strStarts "steps.build.outputs.result" ("steps." ++ "build") = true := by decide
  rw [WorkflowMocker.getOutputs, WorkflowMocker.setOutput]
  rw [assocLookup_filter (fun x => strStarts x ("steps." ++ "build")) _ _ hq]
  exact assocLookup_setPair_self m.outputs _ _

/-- Witness for C1 at a concrete step, input map and registry. -/
theorem simulate_build_emission_succeeds_witness :
    (simulateWorkflowStep
        ⟨"Build", some "build", some Shell.bash,
         some "echo \"result=success\" >> $GITHUB_OUTPUT", none⟩
        ⟨"t1", "t2", "o/priv", "o/pub", none⟩
        ⟨[], [], []⟩).1.success = true ∧
    assocLookup ((simulateWorkflowStep
        ⟨"Build", some "build", some Shell.bash,
         some "echo \"result=success\" >> $GITHUB_OUTPUT", none⟩
        ⟨"t1", "t2", "o/priv", "o/pub", none⟩
        ⟨[], [], []⟩).1.outputs.getD [])
      "steps.build.outputs.result" = some "success" :=
  simulate_build_emission_succeeds _ _ _ rfl (by decide) rfl

/-! ### Claim C2 -/

/-- Line processing over an appended list runs the first part first and
continues only on success. -/
theorem simulateLines_append (step : WorkflowStep) (xs ys : List String)
    (m : WorkflowMocker) :
    simulateLines step (xs ++ ys) m =
      match simulateLines step xs m with
      | .ok m' => simulateLines step ys m'
      | .error em => .error em := by
  induction xs generalizing m with
  | nil => simp [simulateLines]
  | cons x xs ih =>
    simp only [List.cons_append, simulateLines]
    cases processLine step m x with
    | ok m' => exact ih m'
    | error em => rfl

/-- Claim C2: when a dispatched line's registered handler raises, the
simulation stops at that line — the returned registry state is exactly the
state at the throw, with no later line dispatched or recorded — and the
failure is returned as a success-false result whose error carries the raised
Error's message, a raised string unchanged, or the textual representation
of any other raised value. -/
theorem simulate_handler_raise_stops
    (step : WorkflowStep) (inputs : WorkflowInput) (m m₁ : WorkflowMocker)
    (run : String) (pre post : List String) (lbad : String) (e : Thrown)
    (hrun : step.run = some run)
    (hshell : step.shell ≠ some Shell.powershell)
    (hsplit : splitLines (interpolateInputs inputs run) = pre ++ lbad :: post)
    (hpre : simulateLines step pre m = .ok m₁)
    (h1 : (trimStr lbad == "") = false)
    (h2 : strStarts (trimStr lbad) "#" = false)
    (h3 : (strIncludes (trimStr lbad) "echo" &&
           strIncludes (trimStr lbad) "GITHUB_OUTPUT") = false)
    (h4 : WorkflowMocker.findHandler m₁.mockedCommands (trimStr lbad) =
           some (Except.error e)) :
    simulateWorkflowStep step inputs m =
      ({ success := false, outputs := none, error := some (thrownToString e) },
       { m₁ with trace := m₁.trace ++ [trimStr lbad] }) ∧
    (∀ s, thrownToString (Thrown.str s) = s) ∧
    (∀ msg, thrownToString (Thrown.error msg) = msg) ∧
    (∀ text, thrownToString (Thrown.other text) = text) := by
  refine ⟨?_, fun _ => rfl, fun _ => rfl, fun _ => rfl⟩
  have hproc : processLine step m₁ lbad =
      .error (e, { m₁ with trace := m₁.trace ++ [trimStr lbad] }) := by
    simp only [processLine]
    rw [if_neg (by simp [h1, h2]), if_neg (by simpa using hshell), if_neg (by simp [h3])]
    simp only [WorkflowMocker.executeCommand, h4]
  simp only [simulateWorkflowStep, hrun, hsplit, simulateLines_append, hpre,
    simulateLines, hproc]

/-- Witness for C2: a one-line step whose only line is mocked to raise the
string `"boom"` fails with `error = "boom"` and the registry records only
that one dispatched line. -/
theorem simulate_handler_raise_stops_witness :
    simulateWorkflowStep
        ⟨"Fail", some "x", some Shell.bash, some "boom_cmd", none⟩
        ⟨"t1", "t2", "o/priv", "o/pub", none⟩
        ⟨[("boom", Except.error (Thrown.str "boom"))], [], []⟩ =
      ({ success := false, outputs := none, error := some (thrownToString (Thrown.str "boom")) },
       { mockedCommands := [("boom", Except.error (Thrown.str "boom"))], outputs := [],
         trace := [] ++ [trimStr "boom_cmd"] }) ∧
    (∀ s, thrownToString (Thrown.str s) = s) ∧
    (∀ msg, thrownToString (Thrown.error msg) = msg) ∧
    (∀ text, thrownToString (Thrown.other text) = text) :=
  simulate_handler_raise_stops
    ⟨"Fail", some "x", some Shell.bash, some "boom_cmd", none⟩
    ⟨"t1", "t2", "o/priv", "o/pub", none⟩
    ⟨[("boom", Except.error (Thrown.str "boom"))], [], []⟩
    ⟨[("boom", Except.error (Thrown.str "boom"))], [], []⟩
    "boom_cmd" [] [] "boom_cmd" (Thrown.str "boom")
    rfl (by decide) (by decide) rfl (by decide) (by decide) (by decide) (by decide)

/-! ### Claim C9 -/

/-- Under the `powershell` designator every line is processed without a
throw and without touching the dispatch trace or the pattern map. -/
theorem processLine_powershell_ok (step : WorkflowStep) (m : WorkflowMocker)
    (line : String) (h : step.shell = some Shell.powershell) :
    ∃ m', processLine step m line = .ok m' ∧
      m'.trace = m.trace ∧ m'.mockedCommands = m.mockedCommands := by
  unfold processLine
  by_cases h0 : (trimStr line == "" || strStarts (trimStr line) "#") = true
  · exact ⟨m, by rw [if_pos h0], rfl, rfl⟩
  · rw [if_neg h0, if_pos h]
    by_cases h1 : (strIncludes (trimStr line) "echo" &&
        strIncludes (trimStr line) "GITHUB_OUTPUT") = true
    · rw [if_pos h1]
      cases hf : findEcho psSink (trimStr line).data with
      | none => exact ⟨m, rfl, rfl, rfl⟩
      | some kv => exact ⟨_, rfl, rfl, rfl⟩
    · rw [if_neg h1]
      by_cases h2 : strIncludes (trimStr line) "try \x7b" = true
      · rw [if_pos h2]; exact ⟨_, rfl, rfl, rfl⟩
      · rw [if_neg h2]
        by_cases h3 : strIncludes (trimStr line) "\x7d catch \x7b" = true
        · rw [if_pos h3]; exact ⟨_, rfl, rfl, rfl⟩
        · rw [if_neg h3]; exact ⟨m, rfl, rfl, rfl⟩

/-- Under the `powershell` designator a whole line list is processed
without a throw, preserving the trace and the pattern map. -/
theorem simulateLines_powershell_ok (step : WorkflowStep)
    (h : step.shell = some Shell.powershell) :
    ∀ (lines : List String) (m : WorkflowMocker),
      ∃ m', simulateLines step lines m = .ok m' ∧
        m'.trace = m.trace ∧ m'.mockedCommands = m.mockedCommands
  | [], m => ⟨m, rfl, rfl, rfl⟩
  | l :: rest, m => by
    obtain ⟨m1, hm1, ht1, hc1⟩ := processLine_powershell_ok step m l h
    obtain ⟨m2, hm2, ht2, hc2⟩ := simulateLines_powershell_ok step h rest m1
    exact ⟨m2, by simp [simulateLines, hm1, hm2], ht2.trans ht1, hc2.trans hc1⟩

/-- Claim C9: a step whose shell designator is `powershell` never forwards
any line to the registry's command dispatcher — the ghost dispatch trace is
unchanged — and the simulation always succeeds, so such a step can never
fail with `NoMockError`, regardless of which mocks are registered. -/
theorem simulate_powershell_never_dispatches
    (step : WorkflowStep) (inputs : WorkflowInput) (m : WorkflowMocker)
    (h : step.shell = some Shell.powershell) :
    (simulateWorkflowStep step inputs m).1.success = true ∧
    (simulateWorkflowStep step inputs m).2.trace = m.trace := by
  cases hrun : step.run with
  | none => simp [simulateWorkflowStep, hrun]
  | some run =>
    obtain ⟨m', hm', ht', _⟩ := simulateLines_powershell_ok step h
      (splitLines (interpolateInputs inputs run)) m
    simp [simulateWorkflowStep, hrun, hm', ht']

/-- Witness for C9: a powershell step whose lines match no recognised shape
succeeds with an untouched trace even though no mock is registered. -/
theorem simulate_powershell_never_dispatches_witness :
    (simulateWorkflowStep
        ⟨"PS", some "ps1", some Shell.powershell, some "Get-Command bash\nnpm install", none⟩
        ⟨"t1", "t2", "o/priv", "o/pub", none⟩ ⟨[], [], []⟩).1.success = true ∧
    (simulateWorkflowStep
        ⟨"PS", some "ps1", some Shell.powershell, some "Get-Command bash\nnpm install", none⟩
        ⟨"t1", "t2", "o/priv", "o/pub", none⟩ ⟨[], [], []⟩).2.trace =
      (⟨[], [], []⟩ : WorkflowMocker).trace :=
  simulate_powershell_never_dispatches _ _ _ rfl

/-! ### Claim C3 -/

/-- The registry state carried by a line-processing outcome, whether the
line completed or threw. -/
def mockerOfOutcome : Except (Thrown × WorkflowMocker) WorkflowMocker → WorkflowMocker
  | .ok m => m
  | .error (_, m) => m

/-- Counterexample to C3 as stated: under the default shell family the
line `echo GITHUB_OUTPUT` is non-empty, is no comment and does not match
the output-emission pattern, yet it is never forwarded to the dispatcher —
the simulation succeeds with an empty dispatch trace even though no mock is
registered (a forwarded line would have raised `NoMockError`). -/
theorem bash_gated_line_not_forwarded_counterexample :
    (trimStr "echo GITHUB_OUTPUT" == "") = false ∧
    strStarts (trimStr "echo GITHUB_OUTPUT") "#" = false ∧
    findEcho bashSink (trimStr "echo GITHUB_OUTPUT").data = none ∧
    (simulateWorkflowStep
        ⟨"S", some "s1", some Shell.bash, some "echo GITHUB_OUTPUT", none⟩
        ⟨"t1", "t2", "o/priv", "o/pub", none⟩ ⟨[], [], []⟩).1.success = true ∧
    (simulateWorkflowStep
        ⟨"S", some "s1", some Shell.bash, some "echo GITHUB_OUTPUT", none⟩
        ⟨"t1", "t2", "o/priv", "o/pub", none⟩ ⟨[], [], []⟩).2.trace = [] := by
  refine ⟨by decide, by decide, by decide, ?_, ?_⟩ <;> decide

/-- Amended C3: under a non-`powershell` shell designator, a non-empty,
non-comment line that does not contain both substrings `echo` and
`GITHUB_OUTPUT` is forwarded to the registry's command dispatcher (the
dispatch trace is extended by exactly the trimmed line); a line containing
both substrings but not matching the emission pattern is skipped silently
— no dispatch, no output recorded, no state change. -/
theorem bash_line_forwarding_characterisation
    (step : WorkflowStep) (m : WorkflowMocker) (line : String)
    (hshell : step.shell ≠ some Shell.powershell)
    (h1 : (trimStr line == "") = false)
    (h2 : strStarts (trimStr line) "#" = false) :
    ((strIncludes (trimStr line) "echo" &&
        strIncludes (trimStr line) "GITHUB_OUTPUT") = false →
      (mockerOfOutcome (processLine step m line)).trace =
        m.trace ++ [trimStr line]) ∧
    ((strIncludes (trimStr line) "echo" &&
        strIncludes (trimStr line) "GITHUB_OUTPUT") = true →
      findEcho bashSink (trimStr line).data = none →
      processLine step m line = .ok m) := by
  constructor
  · intro hgate
    have hexec : processLine step m line =
        WorkflowMocker.executeCommand m (trimStr line) := by
      simp only [processLine]
      rw [if_neg (by simp [h1, h2]), if_neg (by simpa using hshell), if_neg (by simp [hgate])]
    rw [hexec]
    unfold WorkflowMocker.executeCommand
    cases WorkflowMocker.findHandler m.mockedCommands (trimStr line) with
    | none => rfl
    | some h =>
      cases h with
      | ok _ => rfl
      | error _ => rfl
  · intro hgate hfind
    simp only [processLine]
    rw [if_neg (by simp [h1, h2]), if_neg (by simpa using hshell), if_pos hgate, hfind]

/-- Witness for the amended C3 at concrete lines: `npm install` (no gate
substrings) is dispatched and recorded in the trace; `echo GITHUB_OUTPUT`
(gated, unmatched) is skipped with no state change. -/
theorem bash_line_forwarding_characterisation_witness :
    (((strIncludes (trimStr "npm install") "echo" &&
        strIncludes (trimStr "npm install") "GITHUB_OUTPUT") = false →
      (mockerOfOutcome (processLine
          ⟨"S", some "s1", some Shell.bash, some "npm install", none⟩
          ⟨[], [], []⟩ "npm install")).trace =
        (⟨[], [], []⟩ : WorkflowMocker).trace ++ [trimStr "npm install"]) ∧
    ((strIncludes (trimStr "npm install") "echo" &&
        strIncludes (trimStr "npm install") "GITHUB_OUTPUT") = true →
      findEcho bashSink (trimStr "npm install").data = none →
      processLine ⟨"S", some "s1", some Shell.bash, some "npm install", none⟩
          ⟨[], [], []⟩ "npm install" = .ok ⟨[], [], []⟩)) ∧
    (((strIncludes (trimStr "echo GITHUB_OUTPUT") "echo" &&
        strIncludes (trimStr "echo GITHUB_OUTPUT") "GITHUB_OUTPUT") = false →
      (mockerOfOutcome (processLine
          ⟨"S", some "s1", some Shell.bash, some "echo GITHUB_OUTPUT", none⟩
          ⟨[], [], []⟩ "echo GITHUB_OUTPUT")).trace =
        (⟨[], [], []⟩ : WorkflowMocker).trace ++ [trimStr "echo GITHUB_OUTPUT"]) ∧
    ((strIncludes (trimStr "echo GITHUB_OUTPUT") "echo" &&
        strIncludes (trimStr "echo GITHUB_OUTPUT") "GITHUB_OUTPUT") = true →
      findEcho bashSink (trimStr "echo GITHUB_OUTPUT").data = none →
      processLine ⟨"S", some "s1", some Shell.bash, some "echo GITHUB_OUTPUT", none⟩
          ⟨[], [], []⟩ "echo GITHUB_OUTPUT" = .ok ⟨[], [], []⟩)) :=
  ⟨bash_line_forwarding_characterisation _ _ _ (by decide) (by decide) (by decide),
   bash_line_forwarding_characterisation _ _ _ (by decide) (by decide) (by decide)⟩

/-! ### Claim C8 -/

/-- Claim C8: after `reset` both the pattern map and the output map are
empty; every dispatched line — including one that matched before the reset
— throws the `NoMockError` naming that line, and every output key —
including one set before the reset — reads back as absent. -/
theorem mocker_reset_clears (m : WorkflowMocker) (line key : String) :
    (m.reset).mockedCommands = [] ∧
    (m.reset).outputs = [] ∧
    (m.reset).executeCommand line =
      .error (Thrown.error ("No mock found for command: " ++ line),
              { m.reset with trace := m.reset.trace ++ [line] }) ∧
    (m.reset).getOutput key = none := by
  refine ⟨rfl, rfl, ?_, rfl⟩
  simp [WorkflowMocker.executeCommand, WorkflowMocker.findHandler, WorkflowMocker.reset]

/-! ### Claim C5 -/

/-- The names of the inputs declared `required: true`, in declaration
order. -/
def WorkflowValidator.requiredNames (cfg : ActionConfig) : List String :=
  (cfg.inputs.filter (fun p => p.2.required)).map (fun p => p.1)

/-- A `filterMap` by an if-some-none function is the map over the filtered
list. -/
theorem filterMap_if_eq_filter_map (p : String → Bool) (f : String → String) :
    ∀ l : List String,
      l.filterMap (fun n => if p n then none else some (f n)) =
        (l.filter (fun n => !p n)).map f
  | [] => rfl
  | n :: l => by
    by_cases h : p n
    · simp [List.filterMap_cons, List.filter_cons, h,
        filterMap_if_eq_filter_map p f l]
    · simp [List.filterMap_cons, List.filter_cons, h,
        filterMap_if_eq_filter_map p f l]

/-- With exactly one occurrence of `k`, a filter whose predicate holds
exactly at `k` keeps exactly `[k]`. -/
theorem filter_eq_singleton_of_count_one (p : String → Bool) :
    ∀ l : List String, l.count k = 1 → (∀ n ∈ l, p n = (n == k)) →
      l.filter p = [k]
  | [], hc, _ => by simp at hc
  | a :: l, hc, hp => by
    by_cases ha : a = k
    · subst ha
      have hcl : l.count a = 0 := by
        have := hc
        rw [List.count_cons_self] at this
        omega
      have hnotin : a ∉ l := List.count_eq_zero.mp hcl
      have hfl : l.filter p = [] := by
        rw [List.filter_eq_nil_iff]
        intro n hn
        have hne : n ≠ a := fun e => hnotin (e ▸ hn)
        have := hp n (List.mem_cons_of_mem _ hn)
        rw [this]
        simpa using hne
      have hpa : p a = true := by
        have := hp a (List.mem_cons_self a l)
        simpa using this
      simp [List.filter_cons, hpa, hfl]
    · have hpa : p a = false := by
        have := hp a (List.mem_cons_self a l)
        rw [this]
        simpa using ha
      have hcl : l.count k = 1 := by
        have := hc
        rwa [List.count_cons_of_ne (Ne.symm ha)] at this
      have := filter_eq_singleton_of_count_one p l hcl
        (fun n hn => hp n (List.mem_cons_of_mem _ hn))
      simp [List.filter_cons, hpa, this]

/-- Claim C5: `validateInputs` returns, in declaration order, exactly one
error string `Missing required input: <name>` for each required input whose
supplied value is absent or falsy and nothing else; with every required
input truthy it returns the empty list; and removing any single required
key (occurring once among the required names) from a fully-truthy map
yields exactly that input's error string. -/
theorem validateInputs_characterisation (cfg : ActionConfig)
    (inputs : List (String × String)) :
    (WorkflowValidator.validateInputs cfg inputs =
      ((WorkflowValidator.requiredNames cfg).filter
          (fun n => !WorkflowValidator.truthyLookup inputs n)).map
        (fun n => "Missing required input: " ++ n)) ∧
    ((∀ n ∈ WorkflowValidator.requiredNames cfg,
        WorkflowValidator.truthyLookup inputs n = true) →
      WorkflowValidator.validateInputs cfg inputs = []) ∧
    (∀ k, (∀ n ∈ WorkflowValidator.requiredNames cfg,
        WorkflowValidator.truthyLookup inputs n = true) →
      k ∈ WorkflowValidator.requiredNames cfg →
      (WorkflowValidator.requiredNames cfg).count k = 1 →
      WorkflowValidator.validateInputs cfg (eraseKey inputs k) =
        ["Missing required input: " ++ k]) := by
  have hchar : ∀ ins : List (String × String),
      WorkflowValidator.validateInputs cfg ins =
        ((WorkflowValidator.requiredNames cfg).filter
            (fun n => !WorkflowValidator.truthyLookup ins n)).map
          (fun n => "Missing required input: " ++ n) := by
    intro ins
    unfold WorkflowValidator.validateInputs WorkflowValidator.requiredNames
    exact filterMap_if_eq_filter_map _ _ _
  refine ⟨hchar inputs, ?_, ?_⟩
  · intro hall
    rw [hchar inputs]
    have : (WorkflowValidator.requiredNames cfg).filter
        (fun n => !WorkflowValidator.truthyLookup inputs n) = [] := by
      rw [List.filter_eq_nil_iff]
      intro n hn
      simp [hall n hn]
    rw [this]; rfl
  · intro k hall hk hcount
    rw [hchar (eraseKey inputs k)]
    have hsingle : (WorkflowValidator.requiredNames cfg).filter
        (fun n => !WorkflowValidator.truthyLookup (eraseKey inputs k) n) = [k] := by
      apply filter_eq_singleton_of_count_one _ _ hcount
      intro n hn
      by_cases hne : n = k
      · subst hne
        have : WorkflowValidator.truthyLookup (eraseKey inputs n) n = false := by
          unfold WorkflowValidator.truthyLookup
          rw [assocLookup_eraseKey_self]
        simp [this]
      · have : WorkflowValidator.truthyLookup (eraseKey inputs k) n =
            WorkflowValidator.truthyLookup inputs n := by
          unfold WorkflowValidator.truthyLookup
          rw [assocLookup_eraseKey_ne inputs k n hne]
        rw [this, hall n hn]
        simp [hne]
    rw [hsingle]; rfl

/-- Witness for C5 at the repository's input declaration: all four required
inputs truthy yields no error; erasing `private-repo` yields exactly its
error. -/
theorem validateInputs_characterisation_witness :
    (WorkflowValidator.validateInputs
        ⟨"Drive API Deploy Action", "Deploy Drive API documentation", some "ohishi-yhonda-org",
         [("github-token", ⟨"token", true, none⟩),
          ("public-repo-token", ⟨"token", true, none⟩),
          ("private-repo", ⟨"repo", true, none⟩),
          ("public-repo", ⟨"repo", true, none⟩),
          ("wrangler-port", ⟨"port", false, some "8787"⟩)],
         ⟨"composite", []⟩⟩
        (eraseKey
          [("github-token", "t1"), ("public-repo-token", "t2"),
           ("private-repo", "o/priv"), ("public-repo", "o/pub")]
          "private-repo") = ["Missing required input: " ++ "private-repo"]) :=
  (validateInputs_characterisation _ _).2.2 "private-repo"
    (by decide) (by decide) (by decide)

/-! ### Claim C7 -/

/-- Claim C7: `analyzeWorkflowMatrix` returns the exact product of the two
axis lengths, with no deduplication, and the all-empty record when the
`test` job, its strategy or its matrix is missing; axes `[A, B, C]` and
`[V]` give three combinations, and duplicated axis values are counted. -/
theorem analyzeWorkflowMatrix_characterisation (cfg : YamlParser.WorkflowConfig) :
    (assocLookup cfg.jobs "test" = none →
      YamlParser.analyzeWorkflowMatrix cfg = ⟨[], [], 0⟩) ∧
    (∀ testJob, assocLookup cfg.jobs "test" = some testJob →
      testJob.strategy = none →
      YamlParser.analyzeWorkflowMatrix cfg = ⟨[], [], 0⟩) ∧
    (∀ testJob strategy, assocLookup cfg.jobs "test" = some testJob →
      testJob.strategy = some strategy → strategy.matrix = none →
      YamlParser.analyzeWorkflowMatrix cfg = ⟨[], [], 0⟩) ∧
    (∀ testJob strategy matrix, assocLookup cfg.jobs "test" = some testJob →
      testJob.strategy = some strategy → strategy.matrix = some matrix →
      YamlParser.analyzeWorkflowMatrix cfg =
        ⟨(assocLookup matrix "os").getD [],
         (assocLookup matrix "node-version").getD [],
         ((assocLookup matrix "os").getD []).length *
           ((assocLookup matrix "node-version").getD []).length⟩) ∧
    (YamlParser.analyzeWorkflowMatrix
        ⟨"テスト", [("test", ⟨"matrix-os",
          some ⟨some [("os", ["A", "B", "C"]), ("node-version", ["V"])]⟩⟩)]⟩ =
      ⟨["A", "B", "C"], ["V"], 3⟩) ∧
    (YamlParser.analyzeWorkflowMatrix
        ⟨"w", [("test", ⟨"r",
          some ⟨some [("os", ["u", "u"]), ("node-version", ["v"])]⟩⟩)]⟩ =
      ⟨["u", "u"], ["v"], 2⟩) := by
  refine ⟨?_, ?_, ?_, ?_, by decide, by decide⟩
  · intro h; simp [YamlParser.analyzeWorkflowMatrix, h]
  · intro j hj hs; simp [YamlParser.analyzeWorkflowMatrix, hj, hs]
  · intro j s hj hs hm; simp [YamlParser.analyzeWorkflowMatrix, hj, hs, hm]
  · intro j s mtx hj hs hm; simp [YamlParser.analyzeWorkflowMatrix, hj, hs, hm]

/-- Witness for C7: the fall-back case at a concrete configuration with no
`test` job. -/
theorem analyzeWorkflowMatrix_characterisation_witness :
    YamlParser.analyzeWorkflowMatrix ⟨"w", [("build", ⟨"ubuntu-latest", none⟩)]⟩ =
      ⟨[], [], 0⟩ :=
  (analyzeWorkflowMatrix_characterisation _).1 (by decide)

/-! ### Claim C6 -/

/-- A successful lookup means the key is among the keys. -/
theorem assocLookup_some_mem {α : Type} (l : List (String × α)) (k : String) (v : α)
    (h : assocLookup l k = some v) : k ∈ l.map Prod.fst := by
  by_contra hmem
  rw [(assocLookup_eq_none_iff l k).mpr hmem] at h
  exact Option.noConfusion h

/-- A successful `parseActionYaml` call was either a cache hit leaving the
state untouched, or a miss that read the file and appended exactly the new
entry. -/
theorem parseActionYaml_ok_cases (env : YamlParser.FsEnv) (p : String)
    (st st' : YamlParser.ParserState) (cfg : YamlParser.ActionConfigRaw)
    (h : YamlParser.parseActionYaml env p st = (.ok cfg, st')) :
    (assocLookup st.cache p = some cfg ∧ st' = st) ∨
    (assocLookup st.cache p = none ∧ st'.cache = st.cache ++ [(p, cfg)] ∧
      st'.reads = st.reads ++ [p]) := by
  unfold YamlParser.parseActionYaml at h
  split at h
  next config heq =>
    simp only [Prod.mk.injEq, Except.ok.injEq] at h
    obtain ⟨h1, h2⟩ := h
    subst h1; subst h2
    exact Or.inl ⟨heq, rfl⟩
  next heq =>
    split at h
    next hr => simp at h
    next content hr =>
      split at h
      next hp => simp at h
      next parsed hp =>
        split at h
        next msg hv => simp at h
        next hv =>
          simp only [Prod.mk.injEq, Except.ok.injEq] at h
          obtain ⟨h1, h2⟩ := h
          subst h1
          exact Or.inr ⟨heq, by rw [← h2], by rw [← h2]⟩

/-- A successful call leaves the parsed value cached under its path. -/
theorem parseActionYaml_ok_cached (env : YamlParser.FsEnv) (p : String)
    (st st' : YamlParser.ParserState) (cfg : YamlParser.ActionConfigRaw)
    (h : YamlParser.parseActionYaml env p st = (.ok cfg, st')) :
    assocLookup st'.cache p = some cfg := by
  rcases parseActionYaml_ok_cases env p st st' cfg h with ⟨hc, rfl⟩ | ⟨hc, hcache, _⟩
  · exact hc
  · rw [hcache]; exact assocLookup_append_fresh st.cache p cfg hc

/-- The key-list invariant of a successful call sequence: keys stay
`Nodup` and the final key set is the initial key set united with the set of
parsed paths. -/
theorem runCalls_cache_keys (env : YamlParser.FsEnv) :
    ∀ (ps : List String) (st st' : YamlParser.ParserState),
      YamlParser.runCalls env ps st = some st' →
      (st.cache.map Prod.fst).Nodup →
      (st'.cache.map Prod.fst).Nodup ∧
        (st'.cache.map Prod.fst).toFinset =
          (st.cache.map Prod.fst).toFinset ∪ ps.toFinset
  | [], st, st', h, hnd => by
    simp only [YamlParser.runCalls, Option.some.injEq] at h
    subst h
    simpa using hnd
  | p :: ps, st, st', h, hnd => by
    simp only [YamlParser.runCalls] at h
    cases hcall : YamlParser.parseActionYaml env p st with
    | mk res st1 =>
      rw [hcall] at h
      cases res with
      | error msg => simp at h
      | ok cfg =>
        simp only at h
        rcases parseActionYaml_ok_cases env p st st1 cfg hcall with
          ⟨hc, heq⟩ | ⟨hc, hcache, _⟩
        · rw [heq] at h
          obtain ⟨hnd', hset⟩ := runCalls_cache_keys env ps st st' h hnd
          refine ⟨hnd', ?_⟩
          have hpmem : p ∈ (st.cache.map Prod.fst).toFinset :=
            List.mem_toFinset.mpr (assocLookup_some_mem st.cache p cfg hc)
          rw [hset, List.toFinset_cons]
          rw [Finset.union_insert]
          rw [Finset.insert_eq_self.mpr (Finset.mem_union_left _ hpmem)]
        · have hpnot : p ∉ st.cache.map Prod.fst :=
            (assocLookup_eq_none_iff st.cache p).mp hc
          have hkeys1 : st1.cache.map Prod.fst = st.cache.map Prod.fst ++ [p] := by
            rw [hcache, List.map_append]; rfl
          have hnd1 : (st1.cache.map Prod.fst).Nodup := by
            rw [hkeys1]
            refine List.Nodup.append hnd (List.nodup_singleton p) ?_
            intro a ha hb
            rw [List.mem_singleton] at hb
            subst hb
            exact hpnot ha
          obtain ⟨hnd', hset⟩ := runCalls_cache_keys env ps st1 st' h hnd1
          refine ⟨hnd', ?_⟩
          rw [hset, hkeys1, List.toFinset_append, List.toFinset_cons]
          simp only [List.toFinset_cons, List.toFinset_nil]
          rw [Finset.union_insert]
          ext x
          simp [Finset.mem_union, Finset.mem_insert, or_assoc, or_comm, or_left_comm]

/-- Claim C6: a repeated `parseActionYaml` call for the same path returns
the identical value and the identical state — in particular no further
file read; after any sequence of successful parse calls from a fresh
parser the cache size equals the number of distinct parsed paths; and
`clearCache` empties the cache. -/
theorem parseActionYaml_cache_contract :
    (∀ (env : YamlParser.FsEnv) (p : String) (st st' : YamlParser.ParserState)
        (cfg : YamlParser.ActionConfigRaw),
      YamlParser.parseActionYaml env p st = (.ok cfg, st') →
      YamlParser.parseActionYaml env p st' = (.ok cfg, st')) ∧
    (∀ (env : YamlParser.FsEnv) (ps : List String) (st' : YamlParser.ParserState),
      YamlParser.runCalls env ps ⟨[], []⟩ = some st' →
      YamlParser.getCacheSize st' = ps.toFinset.card) ∧
    (∀ st : YamlParser.ParserState, YamlParser.getCacheSize (YamlParser.clearCache st) = 0) := by
  refine ⟨?_, ?_, fun _ => rfl⟩
  · intro env p st st' cfg h
    have hcached := parseActionYaml_ok_cached env p st st' cfg h
    unfold YamlParser.parseActionYaml
    rw [hcached]
  · intro env ps st' h
    obtain ⟨hnd, hset⟩ := runCalls_cache_keys env ps ⟨[], []⟩ st' h (by simp)
    have hlen : (st'.cache.map Prod.fst).toFinset.card =
        (st'.cache.map Prod.fst).length :=
      List.toFinset_card_of_nodup hnd
    have : (st'.cache.map Prod.fst).toFinset = ps.toFinset := by
      rw [hset]; simp
    rw [YamlParser.getCacheSize, ← List.length_map st'.cache Prod.fst, ← hlen, this]

/-- Witness for C6: a three-call sequence over two distinct paths ends with
a cache of size two, and the repeat call for the first path is served from
the cache with the state unchanged. -/
theorem parseActionYaml_cache_contract_witness :
    YamlParser.getCacheSize
        (⟨[("a", ⟨"n", "d", some ⟨"composite", some [⟨"s"⟩]⟩⟩),
           ("b", ⟨"n", "d", some ⟨"composite", some [⟨"s"⟩]⟩⟩)], ["a", "b"]⟩ :
          YamlParser.ParserState) =
      (["a", "b", "a"] : List String).toFinset.card :=
  parseActionYaml_cache_contract.2.1
    ⟨fun _ => some "text", fun _ => some ⟨"n", "d", some ⟨"composite", some [⟨"s"⟩]⟩⟩⟩
    ["a", "b", "a"] _ (by decide)

/-! ### Claim C10 -/

/-- On any failure — unreadable file, malformed document, failed
validation — `parseActionYaml` returns an error with the read logged and
the cache untouched. -/
theorem parseActionYaml_failure_result (env : YamlParser.FsEnv) (p : String)
    (st : YamlParser.ParserState)
    (hmiss : assocLookup st.cache p = none)
    (hfail : env.read p = none ∨
      (∃ content, env.read p = some content ∧ env.parse content = none) ∨
      (∃ content parsed msg, env.read p = some content ∧
        env.parse content = some parsed ∧
        YamlParser.validateActionConfig parsed = some msg)) :
    ∃ msg, YamlParser.parseActionYaml env p st =
      (.error msg, ⟨st.cache, st.reads ++ [p]⟩) := by
  rcases hfail with hr | ⟨content, hr, hp⟩ | ⟨content, parsed, msg, hr, hp, hv⟩
  · exact ⟨"ENOENT: no such file or directory: " ++ p,
      by simp only [YamlParser.parseActionYaml, hmiss, hr]⟩
  · exact ⟨"YAML parse error",
      by simp only [YamlParser.parseActionYaml, hmiss, hr, hp]⟩
  · exact ⟨msg,
      by simp only [YamlParser.parseActionYaml, hmiss, hr, hp, hv]⟩

/-- Claim C10: `parseActionYaml` is atomic with respect to its cache — on
failure (unreadable file, malformed document, or failed structural
validation) the result is an error, no cache entry is added, the failed
read is logged, and a repeat call for the same path performs a fresh file
read instead of serving a cached invalid value. -/
theorem parseActionYaml_failure_atomic (env : YamlParser.FsEnv) (p : String)
    (st : YamlParser.ParserState)
    (hmiss : assocLookup st.cache p = none)
    (hfail : env.read p = none ∨
      (∃ content, env.read p = some content ∧ env.parse content = none) ∨
      (∃ content parsed msg, env.read p = some content ∧
        env.parse content = some parsed ∧
        YamlParser.validateActionConfig parsed = some msg)) :
    (∃ msg, (YamlParser.parseActionYaml env p st).1 = .error msg) ∧
    (YamlParser.parseActionYaml env p st).2.cache = st.cache ∧
    (YamlParser.parseActionYaml env p st).2.reads = st.reads ++ [p] ∧
    (YamlParser.parseActionYaml env p
        ((YamlParser.parseActionYaml env p st).2)).2.reads = st.reads ++ [p, p] := by
  obtain ⟨msg, heq⟩ := parseActionYaml_failure_result env p st hmiss hfail
  have hst1 : (YamlParser.parseActionYaml env p st).2 =
      (⟨st.cache, st.reads ++ [p]⟩ : YamlParser.ParserState) := by rw [heq]
  refine ⟨⟨msg, by rw [heq]⟩, by rw [hst1], by rw [hst1], ?_⟩
  rw [hst1]
  obtain ⟨msg2, heq2⟩ := parseActionYaml_failure_result env p
    (⟨st.cache, st.reads ++ [p]⟩ : YamlParser.ParserState) hmiss hfail
  rw [heq2]
  simp

/-- Witness for C10: a missing file on a fresh parser state. -/
theorem parseActionYaml_failure_atomic_witness :
    (∃ msg, (YamlParser.parseActionYaml ⟨fun _ => none, fun _ => none⟩ "action.yml"
        ⟨[], []⟩).1 = .error msg) ∧
    (YamlParser.parseActionYaml ⟨fun _ => none, fun _ => none⟩ "action.yml"
        ⟨[], []⟩).2.cache = ([] : List (String × YamlParser.ActionConfigRaw)) ∧
    (YamlParser.parseActionYaml ⟨fun _ => none, fun _ => none⟩ "action.yml"
        ⟨[], []⟩).2.reads = [] ++ ["action.yml"] ∧
    (YamlParser.parseActionYaml ⟨fun _ => none, fun _ => none⟩ "action.yml"
        ((YamlParser.parseActionYaml ⟨fun _ => none, fun _ => none⟩ "action.yml"
          ⟨[], []⟩).2)).2.reads = [] ++ ["action.yml", "action.yml"] :=
  parseActionYaml_failure_atomic ⟨fun _ => none, fun _ => none⟩ "action.yml"
    ⟨[], []⟩ rfl (Or.inl rfl)

/-! ### Claim C4 -/

/-- A guard character is plain when it is not a newline, not `=`, not a
quote and not whitespace; the canonical guard shape is built from plain
step ids and output names. -/
def plainChar (c : Char) : Bool :=
  !(c == '\n' || c == '=' || c == '\'' || isWS c)

/-- The canonical tail of a guard: a space, `==`, a space and the quoted
expected value. -/
def condTail (v : List Char) : List Char :=
  ' ' :: '=' :: '=' :: ' ' :: '\'' :: (v ++ ['\''])

/-- Every list extends its own prefix. -/
theorem leadsWith_append_self : ∀ (p l : List Char), leadsWith p (p ++ l) = true
  | [], _ => rfl
  | c :: p, l => by simp [leadsWith, leadsWith_append_self p l]

/-- A successful prefix test decomposes the list. -/
theorem leadsWith_eq_append :
    ∀ (p l : List Char), leadsWith p l = true → l = p ++ l.drop p.length
  | [], l, _ => by simp
  | c :: p, [], h => by simp [leadsWith] at h
  | c :: p, d :: l, h => by
    have h' : c = d ∧ leadsWith p l = true := by simpa [leadsWith] using h
    have hcd : c = d := h'.1
    have := leadsWith_eq_append p l h'.2
    simp only [List.length_cons, List.drop_succ_cons, List.cons_append]
    rw [hcd, ← this]

/-- The final group match on the canonical quoted value. -/
theorem matchVal_canonical :
    ∀ (v : List Char), v ≠ [] →
      (∀ c ∈ v, (c == '\'') = false ∧ (c == '\n') = false) →
      matchVal (v ++ ['\'']) = some v
  | [], hne, _ => absurd rfl hne
  | [c], _, hv => by
    have h := hv c (List.mem_singleton_self c)
    simp [matchVal, h.1, h.2]
  | c :: d :: v, _, hv => by
    have hc := hv c (List.mem_cons_self _ _)
    have hd := hv d (List.mem_cons_of_mem _ (List.mem_cons_self _ _))
    have ih : matchVal (d :: (v ++ ['\''])) = some (d :: v) := by
      simpa using matchVal_canonical (d :: v) (by simp)
        (fun e he => hv e (List.mem_cons_of_mem _ he))
    simp only [List.cons_append]
    rw [matchVal]
    simp only [hc.2, Bool.false_eq_true, if_false, List.cons_append]
    rw [if_neg (by simp [hd.1]), ih]
    rfl

/-- The guard tail matches the canonical `==`-and-quoted-value shape. -/
theorem matchEq_canonical (v : List Char) (hne : v ≠ [])
    (hv : ∀ c ∈ v, (c == '\'') = false ∧ (c == '\n') = false) :
    matchEq (condTail v) = some v := by
  have h1 : List.dropWhile isWS (' ' :: '=' :: '=' :: ' ' :: '\'' :: (v ++ ['\''])) =
      '=' :: '=' :: ' ' :: '\'' :: (v ++ ['\'']) := by simp [List.dropWhile, isWS]
  have h2 : List.dropWhile isWS (' ' :: '\'' :: (v ++ ['\''])) =
      '\'' :: (v ++ ['\'']) := by simp [List.dropWhile, isWS]
  unfold matchEq condTail
  rw [h1]
  show (if (('=' : Char) == '=' && ('=' : Char) == '=') = true then
      match List.dropWhile isWS (' ' :: '\'' :: (v ++ ['\''])) with
      | q :: r2 => if (q == '\'') = true then matchVal r2 else none
      | [] => none
    else none) = some v
  rw [if_pos (by decide), h2]
  show (if (('\'' : Char) == '\'') = true then matchVal (v ++ ['\'']) else none) = some v
  rw [if_pos (by decide)]
  exact matchVal_canonical v hne hv

/-- At a plain character the guard-tail match fails. -/
theorem matchEq_plain_head (c : Char) (rest : List Char)
    (hc : plainChar c = true) : matchEq (c :: rest) = none := by
  have hws : isWS c = false := by
    simp only [plainChar, Bool.not_eq_true', Bool.or_eq_false_iff] at hc
    exact hc.2
  have heq : (c == '=') = false := by
    simp only [plainChar, Bool.not_eq_true', Bool.or_eq_false_iff] at hc
    exact hc.1.1.2
  unfold matchEq
  rw [show List.dropWhile isWS (c :: rest) = c :: rest from by
    simp [List.dropWhile, hws]]
  cases rest with
  | nil => rfl
  | cons d rest' => simp [heq]

/-- A plain character is not a newline. -/
theorem plainChar_not_nl (c : Char) (h : plainChar c = true) : (c == '\n') = false := by
  simp only [plainChar, Bool.not_eq_true', Bool.or_eq_false_iff] at h
  exact h.1.1.1

/-- Every character of the literal `.outputs.` is plain. -/
theorem plain_outputsLit : ∀ c ∈ outputsLit, plainChar c = true := by decide

/-- The second capture group swallows exactly the plain text before the
canonical guard tail. -/
theorem g2loop_canonical :
    ∀ (M : List Char), M ≠ [] → (∀ c ∈ M, plainChar c = true) →
      ∀ (v : List Char), v ≠ [] →
        (∀ c ∈ v, (c == '\'') = false ∧ (c == '\n') = false) →
        g2loop (M ++ condTail v) = some (M, v)
  | [], hne, _ => absurd rfl hne
  | [c], _, hM => by
    intro v hnev hv
    have hc := plainChar_not_nl c (hM c (List.mem_singleton_self c))
    simp only [List.cons_append, List.nil_append]
    rw [g2loop]
    simp only [hc, Bool.false_eq_true, if_false]
    rw [matchEq_canonical v hnev hv]
  | c :: d :: M, _, hM => by
    intro v hnev hv
    have hc := plainChar_not_nl c (hM c (List.mem_cons_self _ _))
    have hd := hM d (List.mem_cons_of_mem _ (List.mem_cons_self _ _))
    have ih := g2loop_canonical (d :: M) (by simp)
      (fun e he => hM e (List.mem_cons_of_mem _ he)) v hnev hv
    have hmeq : matchEq ((d :: M) ++ condTail v) = none := by
      simpa using matchEq_plain_head d (M ++ condTail v) hd
    simp only [List.cons_append] at ih hmeq ⊢
    rw [g2loop]
    simp only [hc, Bool.false_eq_true, if_false]
    rw [hmeq, ih]
    rfl

/-- The first capture group and the literal `.outputs.` re-parse the plain
key body: the lazy split may move the literal, but the concatenation of the
captured groups around it is preserved. -/
theorem g1loop_canonical :
    ∀ (A : List Char), A ≠ [] → (∀ c ∈ A, plainChar c = true) →
      ∀ (B v : List Char), B ≠ [] → (∀ c ∈ B, plainChar c = true) →
        v ≠ [] → (∀ c ∈ v, (c == '\'') = false ∧ (c == '\n') = false) →
        ∃ g1 g2, g1loop (A ++ (outputsLit ++ (B ++ condTail v))) = some (g1, g2, v) ∧
          g1 ++ (outputsLit ++ g2) = A ++ (outputsLit ++ B)
  | [], hne, _ => absurd rfl hne
  | [c], _, hA => by
    intro B v hneB hB hnev hv
    have hc := plainChar_not_nl c (hA c (List.mem_singleton_self c))
    have hlw : leadsWith outputsLit (outputsLit ++ (B ++ condTail v)) = true :=
      leadsWith_append_self _ _
    have hdrop : (outputsLit ++ (B ++ condTail v)).drop 9 = B ++ condTail v := by
      rw [show (9 : Nat) = outputsLit.length from rfl, List.drop_left]
    refine ⟨[c], B, ?_, by simp⟩
    simp only [List.cons_append, List.nil_append]
    rw [g1loop]
    simp only [hc, Bool.false_eq_true, if_false, hlw, if_true, hdrop,
      g2loop_canonical B hneB hB v hnev hv]
  | c :: d :: A, _, hA => by
    intro B v hneB hB hnev hv
    have hc := plainChar_not_nl c (hA c (List.mem_cons_self _ _))
    set X := (d :: A) ++ (outputsLit ++ (B ++ condTail v)) with hX
    by_cases hlw : leadsWith outputsLit X = true
    · -- the literal `.outputs.` already occurs at the head of the tail:
      -- the lazy group closes early and the second group swallows the rest
      -- of the key body
      set pre := (d :: A) ++ (outputsLit ++ B) with hpre
      have hXassoc : X = pre ++ condTail v := by
        simp [hX, hpre, List.append_assoc]
      have hprelen : 9 ≤ pre.length := by
        simp [hpre, outputsLit]
        omega
      have hdropX : X.drop 9 = pre.drop 9 ++ condTail v := by
        rw [hXassoc, List.drop_append_of_le_length hprelen]
      have hBpos : 0 < B.length := List.length_pos.mpr hneB
      have hgt : 11 ≤ pre.length := by
        rw [hpre]
        simp [outputsLit]
        omega
      have hPne : pre.drop 9 ≠ [] := by
        have hlen : (pre.drop 9).length = pre.length - 9 := List.length_drop 9 pre
        intro hemp
        rw [hemp] at hlen
        simp at hlen
        omega
      have hPplain : ∀ e ∈ pre.drop 9, plainChar e = true := by
        intro e he
        have hmem : e ∈ pre := List.mem_of_mem_drop he
        rw [hpre] at hmem
        rcases List.mem_append.mp hmem with h1 | h2
        · exact hA e (List.mem_cons_of_mem _ h1)
        · rcases List.mem_append.mp h2 with h3 | h4
          · exact plain_outputsLit e h3
          · exact hB e h4
      have hg2 := g2loop_canonical (pre.drop 9) hPne hPplain v hnev hv
      have hXeq : outputsLit ++ X.drop 9 = X := by
        have := leadsWith_eq_append outputsLit X hlw
        rw [show outputsLit.length = 9 from rfl] at this
        exact this.symm
      have hrel : outputsLit ++ pre.drop 9 = (d :: A) ++ (outputsLit ++ B) := by
        have hcat : (outputsLit ++ pre.drop 9) ++ condTail v =
            ((d :: A) ++ (outputsLit ++ B)) ++ condTail v := by
          rw [List.append_assoc, ← hdropX, hXeq, hXassoc, hpre]
        exact List.append_cancel_right hcat
      refine ⟨[c], pre.drop 9, ?_, ?_⟩
      · show g1loop (c :: X) = some ([c], pre.drop 9, v)
        rw [g1loop]
        simp only [hc, Bool.false_eq_true, if_false, hlw, if_true, hdropX,
          g2loop_canonical (pre.drop 9) hPne hPplain v hnev hv]
      · simp only [List.singleton_append, List.cons_append]
        rw [hrel]
        simp
    · -- no early literal: the lazy group extends by one character
      have hlwf : leadsWith outputsLit X = false := by
        simpa using hlw
      obtain ⟨g1, g2, hg, hrel⟩ := g1loop_canonical (d :: A) (by simp)
        (fun e he => hA e (List.mem_cons_of_mem _ he)) B v hneB hB hnev hv
      refine ⟨c :: g1, g2, ?_, ?_⟩
      · show g1loop (c :: X) = some (c :: g1, g2, v)
        rw [g1loop]
        simp only [hc, Bool.false_eq_true, if_false, hlwf, if_false]
        rw [hX, hg]
        rfl
      · simp only [List.cons_append]
        rw [hrel]
        simp

/-- The character data of a string concatenation is the concatenation of
the data. -/
theorem strData_append (s t : String) : (s ++ t).data = s.data ++ t.data := by
  cases s; cases t; rfl

/-- The character data of `String.mk` is the given list. -/
theorem data_mk (l : List Char) : (String.mk l).data = l := rfl

/-- Strings with equal character data are equal. -/
theorem str_ext (a b : String) (h : a.data = b.data) : a = b := by
  cases a; cases b; cases h; rfl

/-- When the guard starts with the literal `steps.` and the group match
succeeds on the remainder, the left-to-right search returns that match at
position zero. -/
theorem findCondMatch_of_lead (l : List Char) (t : List Char × List Char × List Char)
    (h : leadsWith stepsLit l = true) (hg : g1loop (l.drop 6) = some t) :
    findCondMatch l = some t := by
  cases l with
  | nil => simp [leadsWith, stepsLit] at h
  | cons c rest =>
    rw [findCondMatch]
    simp only [h, if_true, hg]

/-- Claim C4: `validateStepConditions` holds for an unknown step and for a
step without a guard; it holds for every guard the pattern does not match;
and for the canonical guard shape `steps.<id>.outputs.<name> == '<value>'`
(plain id and name, quote-free value) it holds exactly when the output map
binds `steps.<id>.outputs.<name>` to precisely `<value>`. -/
theorem validateStepConditions_characterisation
    (cfg : ActionConfig) (stepName : String) (outputs : List (String × String)) :
    (WorkflowValidator.getStepByName cfg stepName = none →
      WorkflowValidator.validateStepConditions cfg stepName outputs = true) ∧
    (∀ st, WorkflowValidator.getStepByName cfg stepName = some st →
      st.ifCond = none →
      WorkflowValidator.validateStepConditions cfg stepName outputs = true) ∧
    (∀ st cond, WorkflowValidator.getStepByName cfg stepName = some st →
      st.ifCond = some cond → findCondMatch cond.data = none →
      WorkflowValidator.validateStepConditions cfg stepName outputs = true) ∧
    (∀ st i n v, WorkflowValidator.getStepByName cfg stepName = some st →
      st.ifCond = some ("steps." ++ i ++ ".outputs." ++ n ++ " == '" ++ v ++ "'") →
      i.data ≠ [] → n.data ≠ [] → v.data ≠ [] →
      (∀ c ∈ i.data, plainChar c = true) →
      (∀ c ∈ n.data, plainChar c = true) →
      (∀ c ∈ v.data, (c == '\'') = false ∧ (c == '\n') = false) →
      (WorkflowValidator.validateStepConditions cfg stepName outputs = true ↔
        assocLookup outputs ("steps." ++ i ++ ".outputs." ++ n) = some v)) := by
  refine ⟨?_, ?_, ?_, ?_⟩
  · intro h
    simp [WorkflowValidator.validateStepConditions, h]
  · intro st hst hif
    simp [WorkflowValidator.validateStepConditions, hst, hif]
  · intro st cond hst hif hnone
    by_cases hemp : (cond == "") = true
    · simp [WorkflowValidator.validateStepConditions, hst, hif, hemp]
    · simp [WorkflowValidator.validateStepConditions, hst, hif,
        Bool.not_eq_true (cond == "") ▸ hemp, hnone]
  · intro st i n v hst hif hi hn hv hpi hpn hpv
    have h1 : ("steps." : String).data = stepsLit := by decide
    have h2 : (".outputs." : String).data = outputsLit := by decide
    have hGdata : ("steps." ++ i ++ ".outputs." ++ n ++ " == '" ++ v ++ "'").data =
        stepsLit ++ (i.data ++ (outputsLit ++ (n.data ++ condTail v.data))) := by
      simp [strData_append, stepsLit, outputsLit, condTail, List.append_assoc]
    obtain ⟨g1, g2, hg, hrel⟩ :=
      g1loop_canonical i.data hi hpi n.data v.data hn hpn hv hpv
    have hlead : leadsWith stepsLit
        ("steps." ++ i ++ ".outputs." ++ n ++ " == '" ++ v ++ "'").data = true := by
      rw [hGdata]; exact leadsWith_append_self _ _
    have hdrop : ("steps." ++ i ++ ".outputs." ++ n ++ " == '" ++ v ++ "'").data.drop 6 =
        i.data ++ (outputsLit ++ (n.data ++ condTail v.data)) := by
      rw [hGdata, show (6 : Nat) = stepsLit.length from rfl, List.drop_left]
    have hfind : findCondMatch
        ("steps." ++ i ++ ".outputs." ++ n ++ " == '" ++ v ++ "'").data =
        some (g1, g2, v.data) :=
      findCondMatch_of_lead _ _ hlead (by rw [hdrop]; exact hg)
    have hGne : (("steps." ++ i ++ ".outputs." ++ n ++ " == '" ++ v ++ "'" : String)
        == "") = false := by
      apply beq_eq_false_iff_ne.mpr
      intro hG
      have : ("steps." ++ i ++ ".outputs." ++ n ++ " == '" ++ v ++ "'").data =
          ("" : String).data := by rw [hG]
      rw [hGdata] at this
      simp [stepsLit] at this
    have hval : WorkflowValidator.validateStepConditions cfg stepName outputs =
        (assocLookup outputs
            ("steps." ++ String.mk g1 ++ ".outputs." ++ String.mk g2)
          == some (String.mk v.data)) := by
      unfold WorkflowValidator.validateStepConditions
      simp only [hst, hif, hGne, Bool.false_eq_true, if_false, hfind]
    have hkey : ("steps." ++ String.mk g1 ++ ".outputs." ++ String.mk g2 : String) =
        "steps." ++ i ++ ".outputs." ++ n := by
      apply str_ext
      have hrel' : g1 ++ (outputsLit ++ g2) = i.data ++ (outputsLit ++ n.data) := hrel
      simp only [outputsLit] at hrel'
      simp only [strData_append, data_mk, List.append_assoc]
      rw [hrel']
    rw [hval, hkey, stringMk_data]
    exact beq_iff_eq

/-- Witness for C4 at the repository's conditional step: the bash deploy
step guarded by `steps.check-bash.outputs.bash_available == 'true'` is
satisfied exactly when the output map binds that key to `true`. -/
theorem validateStepConditions_characterisation_witness :
    WorkflowValidator.validateStepConditions
        ⟨"Drive API Deploy Action", "Deploy docs", none, [],
         ⟨"composite",
          [⟨"Check bash availability", some "check-bash", some Shell.powershell, none, none⟩,
           ⟨"Process and Deploy (Bash)", some "process-bash", some Shell.bash, none,
            some "steps.check-bash.outputs.bash_available == 'true'"⟩]⟩⟩
        "Process and Deploy (Bash)"
        [("steps.check-bash.outputs.bash_available", "true")] = true ↔
      assocLookup [("steps.check-bash.outputs.bash_available", "true")]
        ("steps." ++ "check-bash" ++ ".outputs." ++ "bash_available") =
        some "true" :=
  (validateStepConditions_characterisation _ _ _).2.2.2
    ⟨"Process and Deploy (Bash)", some "process-bash", some Shell.bash, none,
     some "steps.check-bash.outputs.bash_available == 'true'"⟩
    "check-bash" "bash_available" "true"
    (by decide) (by decide) (by decide) (by decide) (by decide)
    (by decide) (by decide) (by decide)
